import Mathlib

/-!
Shallow embedding of the OMR scorer (src/main.py) and verification of its
specification claims.

Conventions of the embedding:
- Python floats are modelled by rationals; Python int() applied to a
  non-negative value is floor, to a negative value is ceiling (truncation
  toward zero), modelled by truncQ.
- A numpy binary image is modelled by its shape (height, width) together
  with a total pixel function; numpy slicing img[a:b, c:d] is modelled by
  the normalisation sliceNorm, which clamps a slice endpoint into [0, len]
  (negative endpoints count from the end, as in Python).
- fill_ratio = black_pixels / total_pixels is rational division, which is
  total in Lean with x / 0 = 0; this realises the convention that a cell
  with zero pixels has fill ratio 0 and the computation never raises.
- The Python dict built by setdefault/append is modelled by an insertion
  ordered association list (dictAppend); dict.get(k, []) is alookup with
  getD; the sentinel pair (None, X) of process_missing_section is
  modelled as the value none of an Option.
-/

namespace OMR

/-- Truncation of a rational toward zero, as Python int() on a float. -/
def truncQ (q : ℚ) : ℤ := if 0 ≤ q then ⌊q⌋ else ⌈q⌉

/-- Pixel coordinate of a percentage: int(perc / 100 * dim) in the source. -/
def pxCoord (perc : ℚ) (dim : ℕ) : ℤ := truncQ (perc / 100 * (dim : ℚ))

/-- Binary image: shape (height, width) and pixel values (255 = foreground). -/
structure BinImg where
  height : ℕ
  width : ℕ
  pixel : ℕ → ℕ → ℕ

/-- Python slice-endpoint normalisation for a sequence of length len:
a negative endpoint counts from the end, then the endpoint is clamped
into [0, len]. -/
def sliceNorm (i : ℤ) (len : ℕ) : ℕ :=
  if i < 0 then ((len : ℤ) + i).toNat else min i.toNat len

/-- Number of pixels equal to 255 in the slice img[cy1:cy2, cx1:cx2]
(the black_pixels count of detect_filled_bubbles). -/
def cellBlack (img : BinImg) (cy1 cy2 cx1 cx2 : ℤ) : ℕ :=
  let r1 := sliceNorm cy1 img.height
  let r2 := sliceNorm cy2 img.height
  let c1 := sliceNorm cx1 img.width
  let c2 := sliceNorm cx2 img.width
  ((List.range (r2 - r1)).map (fun dr =>
    ((List.range (c2 - c1)).filter (fun dc =>
      img.pixel (r1 + dr) (c1 + dc) == 255)).length)).sum

/-- Total pixel count of the slice img[cy1:cy2, cx1:cx2] (cell.size). -/
def cellTotal (img : BinImg) (cy1 cy2 cx1 cx2 : ℤ) : ℕ :=
  (sliceNorm cy2 img.height - sliceNorm cy1 img.height) *
    (sliceNorm cx2 img.width - sliceNorm cx1 img.width)

/-- fill_ratio = black_pixels / total_pixels, as rational division
(total division with x / 0 = 0, realising the zero-area convention). -/
def fill_ratio (img : BinImg) (cy1 cy2 cx1 cx2 : ℤ) : ℚ :=
  (cellBlack img cy1 cy2 cx1 cx2 : ℚ) / (cellTotal img cy1 cy2 cx1 cx2 : ℚ)

/-- One entry of the sections table of scan_omr:
(section_name, x1_perc, x2_perc, y1_perc, y2_perc, options,
num_questions, min_fill_ratio). Option labels have an arbitrary type
with decidable equality (the source mixes strings and integers). -/
structure SectionSpec (α : Type) where
  name : String
  x1Perc : ℚ
  x2Perc : ℚ
  y1Perc : ℚ
  y2Perc : ℚ
  options : List α
  numQuestions : ℕ
  minFillRatio : ℚ

variable {α : Type} [DecidableEq α]

/-- col_width = (x2 - x1) / len(options), with x1, x2 the pixel coordinates. -/
def colWidth (s : SectionSpec α) (W : ℕ) : ℚ :=
  ((pxCoord s.x2Perc W - pxCoord s.x1Perc W : ℤ) : ℚ) / (s.options.length : ℚ)

/-- row_height = (y2 - y1) / num_questions. -/
def rowHeight (s : SectionSpec α) (H : ℕ) : ℚ :=
  ((pxCoord s.y2Perc H - pxCoord s.y1Perc H : ℤ) : ℚ) / (s.numQuestions : ℚ)

/-- cx1 = int(x1 + o * col_width). -/
def cellX1 (s : SectionSpec α) (W : ℕ) (o : ℕ) : ℤ :=
  truncQ ((pxCoord s.x1Perc W : ℚ) + (o : ℚ) * colWidth s W)

/-- cx2 = int(x1 + (o + 1) * col_width). -/
def cellX2 (s : SectionSpec α) (W : ℕ) (o : ℕ) : ℤ :=
  truncQ ((pxCoord s.x1Perc W : ℚ) + ((o : ℚ) + 1) * colWidth s W)

/-- cy1 = int(y1 + q * row_height). -/
def cellY1 (s : SectionSpec α) (H : ℕ) (q : ℕ) : ℤ :=
  truncQ ((pxCoord s.y1Perc H : ℚ) + (q : ℚ) * rowHeight s H)

/-- cy2 = int(y1 + (q + 1) * row_height). -/
def cellY2 (s : SectionSpec α) (H : ℕ) (q : ℕ) : ℤ :=
  truncQ ((pxCoord s.y1Perc H : ℚ) + ((q : ℚ) + 1) * rowHeight s H)

/-- Fill ratio of the cell at (row index q, option index o) of a section. -/
def cellFillRatio (img : BinImg) (s : SectionSpec α) (q o : ℕ) : ℚ :=
  fill_ratio img (cellY1 s img.height q) (cellY2 s img.height q)
    (cellX1 s img.width o) (cellX2 s img.width o)

/-- Detections contributed by one section, in the loop order of
detect_filled_bubbles: for q in range(num_questions), for (o, option) in
enumerate(options), record (q + 1, option) when fill_ratio > min_fill_ratio. -/
def sectionDetections (img : BinImg) (s : SectionSpec α) : List (ℕ × α) :=
  (List.range s.numQuestions).flatMap (fun q =>
    s.options.enum.filterMap (fun oo =>
      if cellFillRatio img s q oo.1 > s.minFillRatio then some (q + 1, oo.2)
      else none))

/-- Index form of sectionDetections: records (q + 1, option index) instead of
(q + 1, option label), in the same loop order. -/
def sectionDetectionsIdx (img : BinImg) (s : SectionSpec α) : List (ℕ × ℕ × α) :=
  (List.range s.numQuestions).flatMap (fun q =>
    s.options.enum.filterMap (fun oo =>
      if cellFillRatio img s q oo.1 > s.minFillRatio then some (q + 1, oo.1, oo.2)
      else none))

/-- dict.setdefault(k, []).append(v) on an insertion-ordered association
list: append v to the bucket of k when k is present, otherwise add the
key k at the end with the singleton bucket [v]. -/
def dictAppend (m : List (String × List β)) (k : String) (v : β) :
    List (String × List β) :=
  match m with
  | [] => [(k, [v])]
  | (k1, vs) :: rest =>
    if k1 = k then (k1, vs ++ [v]) :: rest else (k1, vs) :: dictAppend rest k v

/-- First-occurrence lookup in an association list (Python dict lookup). -/
def alookup (m : List (β × γ)) (k : β) [DecidableEq β] : Option γ :=
  match m with
  | [] => none
  | (k1, v) :: rest => if k1 = k then some v else alookup rest k

/-- In-place value replacement for a key of an association list
(Python dict assignment to an existing key; no effect on a missing key). -/
def aupdate (m : List (β × γ)) (k : β) (v : γ) [DecidableEq β] :
    List (β × γ) :=
  match m with
  | [] => []
  | (k1, v1) :: rest =>
    if k1 = k then (k1, v) :: rest else (k1, v1) :: aupdate rest k v

/-- detect_filled_bubbles: scan every section in order and append each
detection to the bucket of its section name. -/
def detect_filled_bubbles (img : BinImg) (sections : List (SectionSpec α)) :
    List (String × List (ℕ × α)) :=
  sections.foldl (fun acc s =>
    (sectionDetections img s).foldl (fun acc2 d => dictAppend acc2 s.name d) acc) []

/-- Loop body of the mapping construction of process_missing_section:
a column seen for the first time is inserted; a column seen again replaces
the stored tuple only when the new question number is strictly smaller. -/
def pmsStep (m : List (α × (ℕ × α))) (tup : ℕ × α) : List (α × (ℕ × α)) :=
  match alookup m tup.2 with
  | some cur => if tup.1 < cur.1 then aupdate m tup.2 tup else m
  | none => m ++ [(tup.2, tup)]

/-- The column mapping built by process_missing_section from the detected
list: key = column label, value = best tuple so far. -/
def buildMapping (detected : List (ℕ × α)) : List (α × (ℕ × α)) :=
  detected.foldl pmsStep []

/-- process_missing_section: look up the section detections (empty when the
key is absent), build the column mapping, then for each expected column emit
the mapped tuple, or the sentinel (modelled by none, standing for the pair
(None, X) of the source) when the column is missing. -/
def process_missing_section (filled : List (String × List (ℕ × α)))
    (sectionName : String) (expectedColumns : List α) : List (Option (ℕ × α)) :=
  let detected := (alookup filled sectionName).getD []
  let mapping := buildMapping detected
  expectedColumns.map (fun col => alookup mapping col)

/-- Modelled from the spec: the duplicate-resolution rule of the Column
Reconciler stated operationally in section 4.4 of the spec, used as the
reference for claim C1. Scanning the detections in their given order, keep
for the given column the tuple with the smaller question number, the
first-seen one when equal. -/
def specBest (dets : List (ℕ × α)) (col : α) : Option (ℕ × α) :=
  dets.foldl (fun best tup =>
    if tup.2 = col then
      match best with
      | none => some tup
      | some b => if tup.1 < b.1 then some tup else some b
    else best) none

/-- Detections contributed to the bucket of a given name: the concatenation
over the sections carrying that name of their detection lists, in section
order. -/
def nameDetections (img : BinImg) (sections : List (SectionSpec α))
    (name : String) : List (ℕ × α) :=
  sections.flatMap (fun s => if s.name = name then sectionDetections img s else [])

/-- Concrete all-foreground 4 by 4 image used by witnesses. -/
def imgW : BinImg := ⟨4, 4, fun _ _ => 255⟩

/-- Concrete image agreeing with imgW on the 4 by 4 range but different
outside it, used by the C8 witness. -/
def imgW2 : BinImg := ⟨4, 4, fun r c => if r < 4 then (if c < 4 then 255 else 7) else 7⟩

/-- Concrete two-option section used by witnesses. -/
def secW : SectionSpec String := ⟨"W", 0, 100, 0, 100, ["A", "B"], 1, (1 : ℚ) / 20⟩

/-- Concrete configuration exhibiting the off-by-one cell widths of C7:
three options spanning pixel columns 0 to 10. -/
def specC7 : SectionSpec String := ⟨"C7", 0, 10, 0, 100, ["a", "b", "c"], 1, 1⟩

/-! Helper lemmas about association lists and the reconciler. -/

theorem alookup_append {β γ : Type} [DecidableEq β] (m l : List (β × γ)) (c : β) :
    alookup (m ++ l) c = ((alookup m c).rec (alookup l c) (fun v => some v)) := by
  induction m with
  | nil => simp [alookup]
  | cons hd tl ih =>
    obtain ⟨k1, v1⟩ := hd
    by_cases h : k1 = c <;> simp [alookup, h, ih]

theorem alookup_aupdate {β γ : Type} [DecidableEq β] (m : List (β × γ)) (k : β)
    (v : γ) (c : β) :
    alookup (aupdate m k v) c =
      if k = c then (alookup m c).map (fun _ => v) else alookup m c := by
  induction m with
  | nil => simp [alookup, aupdate]
  | cons hd tl ih =>
    obtain ⟨k1, v1⟩ := hd
    by_cases h1 : k1 = k
    · by_cases h2 : k = c
      · simp [aupdate, alookup, h1, h2]
      · simp [aupdate, alookup, h1, h2, h1.symm ▸ h2]
    · by_cases h2 : k1 = c
      · have h3 : ¬ k = c := fun h => h1 (h2 ▸ h ▸ rfl)
        have h4 : ¬ c = k := fun h => h3 h.symm
        simp [aupdate, alookup, h1, h2, h3, h4]
      · simp [aupdate, alookup, h1, h2, ih]

/-- Effect of one reconciler step on a lookup: exactly the per-column
best-so-far update of the spec. -/
theorem alookup_pmsStep (m : List (α × (ℕ × α))) (tup : ℕ × α) (c : α) :
    alookup (pmsStep m tup) c =
      if tup.2 = c then
        (match alookup m c with
          | none => some tup
          | some b => if tup.1 < b.1 then some tup else some b)
      else alookup m c := by
  unfold pmsStep
  cases h : alookup m tup.2 with
  | none =>
    rw [alookup_append]
    by_cases hc : tup.2 = c
    · rw [hc] at h
      simp [h, hc, alookup]
    · have : alookup [(tup.2, tup)] c = none := by simp [alookup, hc]
      simp only [this, hc, if_neg]
      cases alookup m c <;> rfl
  | some cur =>
    dsimp only
    by_cases hlt : tup.1 < cur.1
    · rw [if_pos hlt, alookup_aupdate]
      by_cases hc : tup.2 = c
      · rw [hc] at h
        simp [h, hc, hlt]
      · simp [hc]
    · rw [if_neg hlt]
      by_cases hc : tup.2 = c
      · rw [hc] at h
        simp [h, hc, hlt]
      · simp [hc]

theorem alookup_foldl_pmsStep (dets : List (ℕ × α)) :
    ∀ (m : List (α × (ℕ × α))) (c : α),
      alookup (dets.foldl pmsStep m) c =
        dets.foldl (fun best tup =>
          if tup.2 = c then
            (match best with
              | none => some tup
              | some b => if tup.1 < b.1 then some tup else some b)
          else best) (alookup m c) := by
  induction dets with
  | nil => intro m c; rfl
  | cons tup dets ih =>
    intro m c
    simp only [List.foldl_cons]
    rw [ih, alookup_pmsStep]

/-- Lookup in the mapping built by process_missing_section agrees with the
straightforward best-detection scan of the spec. -/
theorem alookup_buildMapping (dets : List (ℕ × α)) (c : α) :
    alookup (buildMapping dets) c = specBest dets c := by
  unfold buildMapping specBest
  rw [alookup_foldl_pmsStep]
  rfl

/-- The best-detection scan only returns tuples whose column label is the
queried column. -/
theorem specBest_snd (dets : List (ℕ × α)) (c : α) :
    ∀ t, specBest dets c = some t → t.2 = c := by
  unfold specBest
  suffices h : ∀ (b : Option (ℕ × α)), (∀ t, b = some t → t.2 = c) →
      ∀ t, dets.foldl (fun best tup =>
        if tup.2 = c then
          (match best with
            | none => some tup
            | some b => if tup.1 < b.1 then some tup else some b)
        else best) b = some t → t.2 = c by
    exact h none (by simp)
  induction dets with
  | nil => intro b hb t ht; exact hb t ht
  | cons tup dets ih =>
    intro b hb t
    simp only [List.foldl_cons]
    refine ih _ ?_ t
    intro u hu
    by_cases hc : tup.2 = c
    · rw [if_pos hc] at hu
      cases hbv : b with
      | none =>
        rw [hbv] at hu
        simp only [Option.some.injEq] at hu
        rw [← hu]; exact hc
      | some bv =>
        rw [hbv] at hu
        by_cases hlt : tup.1 < bv.1
        · simp only [hlt, if_true, Option.some.injEq] at hu
          rw [← hu]; exact hc
        · simp only [hlt, if_false, Option.some.injEq] at hu
          exact hb u (hu ▸ hbv)
    · rw [if_neg hc] at hu
      exact hb u hu

/-! Claim theorems for the Column Reconciler. -/

/-- C1: for every list of detections and every column label, the mapping
built by process_missing_section assigns that column the detection obtained
by scanning the input in order and replacing the recorded detection only
when a later detection for the same column has a strictly smaller row
index; smallest row wins and on equal rows the first-seen detection is
kept. -/
theorem claim_C1_reconciler_duplicate_resolution (dets : List (ℕ × α)) (col : α) :
    alookup (buildMapping dets) col = specBest dets col :=
  alookup_buildMapping dets col

/-- C2: the reconciled output has exactly one entry per expected column, in
the given order: its length equals the number of expected columns and its
i-th entry is the mapped detection of the i-th expected column when one
exists, the sentinel (modelled by none) otherwise — for any number of raw
detections per column. -/
theorem claim_C2_reconciler_output_shape (filled : List (String × List (ℕ × α)))
    (sectionName : String) (expectedColumns : List α) :
    (process_missing_section filled sectionName expectedColumns).length =
        expectedColumns.length ∧
      ∀ i : ℕ, (process_missing_section filled sectionName expectedColumns).get? i =
        (expectedColumns.get? i).map (fun col =>
          alookup (buildMapping ((alookup filled sectionName).getD [])) col) := by
  constructor
  · simp [process_missing_section]
  · intro i
    simp [process_missing_section, List.get?_map]

/-- C10: the reconciler silently discards detections for unexpected
columns: every non-sentinel entry of the reconciled output has its column
label among the expected columns. -/
theorem claim_C10_reconciler_discards_unexpected
    (filled : List (String × List (ℕ × α))) (sectionName : String)
    (expectedColumns : List α) (q : ℕ) (c : α)
    (h : some (q, c) ∈ process_missing_section filled sectionName expectedColumns) :
    c ∈ expectedColumns := by
  unfold process_missing_section at h
  rcases List.mem_map.mp h with ⟨col, hcol, hlook⟩
  rw [alookup_buildMapping] at hlook
  have h2 : c = col := specBest_snd _ col (q, c) hlook
  rw [h2]
  exact hcol

/-- Witness for C10 at a concrete input: the detection (2, 3) recorded for
column 3 appears in the output and 3 is an expected column. -/
theorem claim_C10_witness :
    some (2, 3) ∈
        process_missing_section [("Roll Number", [(2, 3)])] "Roll Number" [3, 4] ∧
      3 ∈ [3, 4] :=
  ⟨by decide,
    claim_C10_reconciler_discards_unexpected [("Roll Number", [(2, 3)])]
      "Roll Number" [3, 4] 2 3 (by decide)⟩

/-! Fill classifier: bounds of the fill ratio. -/

theorem cellBlack_le_cellTotal (img : BinImg) (cy1 cy2 cx1 cx2 : ℤ) :
    cellBlack img cy1 cy2 cx1 cx2 ≤ cellTotal img cy1 cy2 cx1 cx2 := by
  unfold cellBlack cellTotal
  have hb : ∀ x ∈ (List.range (sliceNorm cy2 img.height - sliceNorm cy1 img.height)).map
      (fun dr => ((List.range (sliceNorm cx2 img.width - sliceNorm cx1 img.width)).filter
        (fun dc => img.pixel (sliceNorm cy1 img.height + dr)
          (sliceNorm cx1 img.width + dc) == 255)).length),
      x ≤ sliceNorm cx2 img.width - sliceNorm cx1 img.width := by
    intro x hx
    rcases List.mem_map.mp hx with ⟨dr, _, rfl⟩
    exact le_trans (List.length_filter_le _ _) (by simp)
  calc ((List.range (sliceNorm cy2 img.height - sliceNorm cy1 img.height)).map
      (fun dr => ((List.range (sliceNorm cx2 img.width - sliceNorm cx1 img.width)).filter
        (fun dc => img.pixel (sliceNorm cy1 img.height + dr)
          (sliceNorm cx1 img.width + dc) == 255)).length)).sum
      ≤ ((List.range (sliceNorm cy2 img.height - sliceNorm cy1 img.height)).map
          (fun dr => ((List.range (sliceNorm cx2 img.width - sliceNorm cx1 img.width)).filter
            (fun dc => img.pixel (sliceNorm cy1 img.height + dr)
              (sliceNorm cx1 img.width + dc) == 255)).length)).length •
          (sliceNorm cx2 img.width - sliceNorm cx1 img.width) :=
        List.sum_le_card_nsmul _ _ hb
    _ = (sliceNorm cy2 img.height - sliceNorm cy1 img.height) *
          (sliceNorm cx2 img.width - sliceNorm cx1 img.width) := by
        simp [smul_eq_mul]

/-- C3: the fill ratio of any cell rectangle of any binary image lies in
[0, 1], and a rectangle with zero pixels has fill ratio 0 (the division is
total, so no crash can occur). -/
theorem claim_C3_fill_ratio_in_unit_interval (img : BinImg) (cy1 cy2 cx1 cx2 : ℤ) :
    0 ≤ fill_ratio img cy1 cy2 cx1 cx2 ∧ fill_ratio img cy1 cy2 cx1 cx2 ≤ 1 ∧
      (cellTotal img cy1 cy2 cx1 cx2 = 0 → fill_ratio img cy1 cy2 cx1 cx2 = 0) := by
  refine ⟨?_, ?_, ?_⟩
  · exact div_nonneg (Nat.cast_nonneg _) (Nat.cast_nonneg _)
  · unfold fill_ratio
    rcases Nat.eq_zero_or_pos (cellTotal img cy1 cy2 cx1 cx2) with h | h
    · have hb := cellBlack_le_cellTotal img cy1 cy2 cx1 cx2
      rw [h] at hb
      rw [Nat.le_zero.mp hb, h]
      norm_num
    · rw [div_le_one (by exact_mod_cast h)]
      exact_mod_cast cellBlack_le_cellTotal img cy1 cy2 cx1 cx2
  · intro h
    have hb := cellBlack_le_cellTotal img cy1 cy2 cx1 cx2
    rw [h] at hb
    unfold fill_ratio
    rw [Nat.le_zero.mp hb]
    norm_num

/-- Witness for C3 at a concrete input: the rectangle img[0:0, 0:0] of the
4 by 4 image has zero pixels and its fill ratio is 0. -/
theorem claim_C3_witness :
    cellTotal imgW 0 0 0 0 = 0 ∧ fill_ratio imgW 0 0 0 0 = 0 :=
  ⟨by decide, (claim_C3_fill_ratio_in_unit_interval imgW 0 0 0 0).2.2 (by decide)⟩

/-! Geometry mapper: truncation toward zero and per-cell independence. -/

/-- Truncation toward zero: the truncated value does not exceed the exact
value in magnitude, is within one of it, and has a compatible sign. -/
theorem truncQ_toward_zero (q : ℚ) :
    |(truncQ q : ℚ)| ≤ |q| ∧ |q| < |(truncQ q : ℚ)| + 1 ∧ 0 ≤ (truncQ q : ℚ) * q := by
  unfold truncQ
  by_cases h : 0 ≤ q
  · rw [if_pos h]
    have h0 : (0 : ℚ) ≤ (⌊q⌋ : ℚ) := by
      exact_mod_cast Int.floor_nonneg.mpr h
    rw [abs_of_nonneg h0, abs_of_nonneg h]
    exact ⟨Int.floor_le q, Int.lt_floor_add_one q, mul_nonneg h0 h⟩
  · rw [if_neg h]
    push_neg at h
    have h1 : ⌈q⌉ ≤ (0 : ℤ) := Int.ceil_le.mpr (by exact_mod_cast le_of_lt h)
    have h0 : (⌈q⌉ : ℚ) ≤ 0 := by exact_mod_cast h1
    rw [abs_of_nonpos h0, abs_of_nonpos (le_of_lt h)]
    refine ⟨neg_le_neg (Int.le_ceil q), ?_,
      mul_nonneg_of_nonpos_of_nonpos h0 (le_of_lt h)⟩
    · have := Int.ceil_lt_add_one q
      linarith

/-- C7: every percentage coordinate is converted to pixels by truncating
perc / 100 * dimension toward zero; every cell boundary is obtained by the
same truncation applied to x1 + col * colWidth independently of the
neighbouring cells, so the right edge of a cell agrees with the formula of
the left edge of the next cell; and in the concrete configuration specC7 on
a 100 pixel wide image two adjacent cells differ in width by exactly one
pixel. -/
theorem claim_C7_truncating_geometry :
    (∀ (perc : ℚ) (dim : ℕ),
        |(pxCoord perc dim : ℚ)| ≤ |perc / 100 * (dim : ℚ)| ∧
        |perc / 100 * (dim : ℚ)| < |(pxCoord perc dim : ℚ)| + 1 ∧
        0 ≤ (pxCoord perc dim : ℚ) * (perc / 100 * (dim : ℚ))) ∧
    (∀ (s : SectionSpec String) (W o : ℕ), cellX2 s W o = cellX1 s W (o + 1)) ∧
    (∀ (s : SectionSpec String) (H q : ℕ), cellY2 s H q = cellY1 s H (q + 1)) ∧
    ((cellX2 specC7 100 1 - cellX1 specC7 100 1) + 1 =
      cellX2 specC7 100 2 - cellX1 specC7 100 2) := by
  refine ⟨fun perc dim => truncQ_toward_zero _, ?_, ?_, ?_⟩
  · intro s W o
    unfold cellX1 cellX2
    norm_num
  · intro s H q
    unfold cellY1 cellY2
    norm_num
  · with_unfolding_all decide

/-! Determinism: the scan depends only on the image contents in range and
the section list (all functions are pure in the embedding). -/

theorem sliceNorm_le (i : ℤ) (len : ℕ) : sliceNorm i len ≤ len := by
  unfold sliceNorm
  split <;> omega

theorem cellBlack_congr (img1 img2 : BinImg) (hh : img1.height = img2.height)
    (hw : img1.width = img2.width)
    (hp : ∀ r c, r < img1.height → c < img1.width → img1.pixel r c = img2.pixel r c)
    (cy1 cy2 cx1 cx2 : ℤ) :
    cellBlack img1 cy1 cy2 cx1 cx2 = cellBlack img2 cy1 cy2 cx1 cx2 := by
  unfold cellBlack
  dsimp only
  rw [← hh, ← hw]
  congr 1
  refine List.map_congr_left ?_
  intro dr hdr
  congr 1
  refine List.filter_congr ?_
  intro dc hdc
  have hr : sliceNorm cy1 img1.height + dr < img1.height := by
    have h2 := sliceNorm_le cy2 img1.height
    rw [List.mem_range] at hdr
    omega
  have hc : sliceNorm cx1 img1.width + dc < img1.width := by
    have h2 := sliceNorm_le cx2 img1.width
    rw [List.mem_range] at hdc
    omega
  rw [hp _ _ hr hc]

theorem cellTotal_congr (img1 img2 : BinImg) (hh : img1.height = img2.height)
    (hw : img1.width = img2.width) (cy1 cy2 cx1 cx2 : ℤ) :
    cellTotal img1 cy1 cy2 cx1 cx2 = cellTotal img2 cy1 cy2 cx1 cx2 := by
  unfold cellTotal
  rw [hh, hw]

theorem cellFillRatio_congr {α : Type} (img1 img2 : BinImg)
    (hh : img1.height = img2.height) (hw : img1.width = img2.width)
    (hp : ∀ r c, r < img1.height → c < img1.width → img1.pixel r c = img2.pixel r c)
    (s : SectionSpec α) (q o : ℕ) :
    cellFillRatio img1 s q o = cellFillRatio img2 s q o := by
  unfold cellFillRatio fill_ratio
  rw [cellBlack_congr img1 img2 hh hw hp, cellTotal_congr img1 img2 hh hw, hh, hw]

theorem sectionDetections_congr (img1 img2 : BinImg)
    (hh : img1.height = img2.height) (hw : img1.width = img2.width)
    (hp : ∀ r c, r < img1.height → c < img1.width → img1.pixel r c = img2.pixel r c)
    (s : SectionSpec α) :
    sectionDetections img1 s = sectionDetections img2 s := by
  have hr : ∀ q o, cellFillRatio img1 s q o = cellFillRatio img2 s q o :=
    cellFillRatio_congr img1 img2 hh hw hp s
  unfold sectionDetections
  simp only [hr]

/-- C8: scanning is deterministic and stateless: two invocations on images
with identical shape and identical in-range pixels, with the identical
section list, return identical results, and the cell rectangles computed
from (spec, width, height, row, col) are identical across invocations. -/
theorem claim_C8_scan_deterministic (img1 img2 : BinImg)
    (sections : List (SectionSpec α))
    (hh : img1.height = img2.height) (hw : img1.width = img2.width)
    (hp : ∀ r c, r < img1.height → c < img1.width → img1.pixel r c = img2.pixel r c) :
    detect_filled_bubbles img1 sections = detect_filled_bubbles img2 sections ∧
      ∀ (s : SectionSpec α) (q o : ℕ),
        (cellX1 s img1.width o, cellX2 s img1.width o,
          cellY1 s img1.height q, cellY2 s img1.height q) =
        (cellX1 s img2.width o, cellX2 s img2.width o,
          cellY1 s img2.height q, cellY2 s img2.height q) := by
  constructor
  · have hs : ∀ s : SectionSpec α, sectionDetections img1 s = sectionDetections img2 s :=
      sectionDetections_congr img1 img2 hh hw hp
    unfold detect_filled_bubbles
    simp only [hs]
  · intro s q o
    rw [hh, hw]

/-- Witness for C8 at a concrete input: imgW and imgW2 share shape and all
in-range pixels (they differ outside the shape), and scanning them with the
section secW gives identical results. -/
theorem claim_C8_witness :
    (∀ r c, r < imgW.height → c < imgW.width → imgW.pixel r c = imgW2.pixel r c) ∧
      detect_filled_bubbles imgW [secW] = detect_filled_bubbles imgW2 [secW] := by
  have hp : ∀ r c, r < imgW.height → c < imgW.width → imgW.pixel r c = imgW2.pixel r c := by
    intro r c hr hc
    simp only [imgW, imgW2] at hr hc ⊢
    simp [hr, hc]
  exact ⟨hp, (claim_C8_scan_deterministic imgW imgW2 [secW] rfl rfl hp).1⟩

/-! Membership in a section's detection list. -/

/-- A pair is among a section's detections exactly when it arises from a
cell whose fill ratio strictly exceeds the threshold. -/
theorem mem_sectionDetections_iff (img : BinImg) (s : SectionSpec α)
    (q1 : ℕ) (lbl : α) :
    (q1, lbl) ∈ sectionDetections img s ↔
      ∃ j o : ℕ, j < s.numQuestions ∧ s.options[o]? = some lbl ∧
        q1 = j + 1 ∧ cellFillRatio img s j o > s.minFillRatio := by
  unfold sectionDetections
  rw [List.mem_flatMap]
  constructor
  · rintro ⟨j, hj, hmem⟩
    rw [List.mem_range] at hj
    rcases List.mem_filterMap.mp hmem with ⟨oo, hoo, heq⟩
    rw [Option.ite_none_right_eq_some, Option.some.injEq] at heq
    obtain ⟨hcond, heq2⟩ := heq
    obtain ⟨o, x⟩ := oo
    rw [List.mk_mem_enum_iff_getElem?] at hoo
    have hq1 : q1 = j + 1 := by
      have := congrArg Prod.fst heq2
      simpa using this.symm
    have hlbl : x = lbl := by
      have := congrArg Prod.snd heq2
      simpa using this
    refine ⟨j, o, hj, ?_, hq1, hcond⟩
    rw [← hlbl]
    exact hoo
  · rintro ⟨j, o, hj, hlook, rfl, hcond⟩
    refine ⟨j, List.mem_range.mpr hj, List.mem_filterMap.mpr ⟨(o, lbl), ?_, ?_⟩⟩
    · rw [List.mk_mem_enum_iff_getElem?]
      exact hlook
    · simp [hcond]

/-- C4: the filled classification is strictly greater-than: the detection
for a cell is recorded if and only if the cell's fill ratio strictly
exceeds the section threshold, and a fill ratio exactly equal to the
threshold yields no detection. -/
theorem claim_C4_strict_threshold (img : BinImg) (s : SectionSpec α) (q o : ℕ)
    (hnd : s.options.Nodup) (hq : q < s.numQuestions) (ho : o < s.options.length) :
    ((q + 1, s.options.get ⟨o, ho⟩) ∈ sectionDetections img s ↔
        cellFillRatio img s q o > s.minFillRatio) ∧
      (cellFillRatio img s q o = s.minFillRatio →
        (q + 1, s.options.get ⟨o, ho⟩) ∉ sectionDetections img s) := by
  have hiff : (q + 1, s.options.get ⟨o, ho⟩) ∈ sectionDetections img s ↔
      cellFillRatio img s q o > s.minFillRatio := by
    rw [mem_sectionDetections_iff]
    constructor
    · rintro ⟨j, o2, hj, hlook, hq1, hcond⟩
      have hj2 : j = q := by omega
      subst hj2
      rcases List.getElem?_eq_some_iff.mp hlook with ⟨ho2, hv⟩
      rw [List.get_eq_getElem] at hv
      have ho2o : o2 = o := (List.Nodup.getElem_inj_iff hnd).mp hv
      subst ho2o
      exact hcond
    · intro hcond
      refine ⟨q, o, hq, ?_, rfl, hcond⟩
      rw [List.get_eq_getElem]
      exact List.getElem?_eq_getElem ho
  refine ⟨hiff, fun heq hmem => ?_⟩
  rw [heq] at hiff
  exact lt_irrefl s.minFillRatio (hiff.mp hmem)

/-- Witness for C4 at a concrete input: in the all-foreground image the
cell (row 1, option A) of secW is detected, with nodup options and indices
in range. -/
theorem claim_C4_witness :
    (secW.options.Nodup ∧ 0 < secW.numQuestions ∧ 0 < secW.options.length) ∧
      (((1, "A") ∈ sectionDetections imgW secW ↔
          cellFillRatio imgW secW 0 0 > secW.minFillRatio) ∧
        (cellFillRatio imgW secW 0 0 = secW.minFillRatio →
          (1, "A") ∉ sectionDetections imgW secW)) :=
  ⟨⟨by decide, by decide, by decide⟩,
    claim_C4_strict_threshold imgW secW 0 0 (by decide) (by decide) (by decide)⟩

/-! Characterisation of the dictionary built by detect_filled_bubbles. -/

theorem alookup_dictAppend {γ : Type} (m : List (String × List γ)) (k : String)
    (v : γ) (c : String) :
    alookup (dictAppend m k v) c =
      if k = c then some ((alookup m c).getD [] ++ [v]) else alookup m c := by
  induction m with
  | nil =>
    by_cases h : k = c <;> simp [dictAppend, alookup, h]
  | cons hd tl ih =>
    obtain ⟨k1, vs⟩ := hd
    by_cases h1 : k1 = k
    · subst h1
      by_cases h2 : k1 = c <;> simp [dictAppend, alookup, h2]
    · by_cases h2 : k1 = c
      · subst h2
        have h3 : ¬ k = k1 := fun h => h1 h.symm
        simp [dictAppend, alookup, h1, h3]
      · simp [dictAppend, alookup, h1, h2, ih]

theorem alookup_foldl_dictAppend {γ : Type} [DecidableEq γ] (ds : List γ) :
    ∀ (m : List (String × List γ)) (k c : String),
      alookup (ds.foldl (fun a d => dictAppend a k d) m) c =
        if k = c then
          (match alookup m c with
            | some l => some (l ++ ds)
            | none => if ds = [] then none else some ds)
        else alookup m c := by
  induction ds with
  | nil =>
    intro m k c
    by_cases h : k = c
    · rw [List.foldl_nil, if_pos h]
      cases alookup m c <;> simp
    · rw [List.foldl_nil, if_neg h]
  | cons d ds ih =>
    intro m k c
    rw [List.foldl_cons, ih]
    by_cases h : k = c
    · rw [if_pos h, if_pos h, alookup_dictAppend, if_pos h]
      cases alookup m c <;> simp
    · rw [if_neg h, if_neg h, alookup_dictAppend, if_neg h]

theorem alookup_detect_fold (img : BinImg) (sections : List (SectionSpec α)) :
    ∀ (m : List (String × List (ℕ × α))) (name : String),
      alookup (sections.foldl (fun acc s =>
          (sectionDetections img s).foldl (fun a d => dictAppend a s.name d) acc) m)
        name =
        match alookup m name with
        | some l => some (l ++ nameDetections img sections name)
        | none =>
          if nameDetections img sections name = [] then none
          else some (nameDetections img sections name) := by
  induction sections with
  | nil =>
    intro m name
    simp only [List.foldl_nil, nameDetections, List.flatMap_nil]
    cases alookup m name <;> simp
  | cons s rest ih =>
    intro m name
    rw [List.foldl_cons, ih]
    rw [alookup_foldl_dictAppend]
    have hnd : nameDetections img (s :: rest) name =
        (if s.name = name then sectionDetections img s else []) ++
          nameDetections img rest name := by
      simp [nameDetections]
    rw [hnd]
    by_cases hname : s.name = name
    · rw [if_pos hname, if_pos hname]
      cases hm : alookup m name with
      | some l =>
        simp [List.append_assoc]
      | none =>
        by_cases hsd : sectionDetections img s = []
        · simp [hsd]
        · simp [hsd]
    · rw [if_neg hname, if_neg hname]
      simp

theorem alookup_detect (img : BinImg) (sections : List (SectionSpec α))
    (name : String) :
    alookup (detect_filled_bubbles img sections) name =
      if nameDetections img sections name = [] then none
      else some (nameDetections img sections name) := by
  unfold detect_filled_bubbles
  rw [alookup_detect_fold img sections [] name]
  rfl

/-- A section's detection list is nonempty exactly when some in-range cell
strictly exceeds the threshold. -/
theorem sectionDetections_ne_nil_iff (img : BinImg) (s : SectionSpec α) :
    sectionDetections img s ≠ [] ↔
      ∃ q o : ℕ, q < s.numQuestions ∧ o < s.options.length ∧
        cellFillRatio img s q o > s.minFillRatio := by
  constructor
  · intro h
    match hsd : sectionDetections img s with
    | [] => exact absurd hsd h
    | x :: rest =>
      have hx : x ∈ sectionDetections img s := hsd ▸ List.mem_cons_self x rest
      obtain ⟨a, b⟩ := x
      rcases (mem_sectionDetections_iff img s a b).mp hx with ⟨j, o, hj, hlook, _, hcond⟩
      rcases List.getElem?_eq_some_iff.mp hlook with ⟨ho, _⟩
      exact ⟨j, o, hj, ho, hcond⟩
  · rintro ⟨q, o, hq, ho, hcond⟩
    intro hnil
    have hm : (q + 1, s.options.get ⟨o, ho⟩) ∈ sectionDetections img s := by
      rw [mem_sectionDetections_iff]
      refine ⟨q, o, hq, ?_, rfl, hcond⟩
      rw [List.get_eq_getElem]
      exact List.getElem?_eq_getElem ho
    rw [hnil] at hm
    cases hm

/-- C6: the result of detect_filled_bubbles has a key for a name exactly
when some section of that name has an in-range cell strictly above the
threshold, and a stored bucket is never the empty list. -/
theorem claim_C6_key_iff_filled_cell (img : BinImg) (sections : List (SectionSpec α))
    (name : String) :
    ((alookup (detect_filled_bubbles img sections) name).isSome ↔
        ∃ s ∈ sections, s.name = name ∧ ∃ q o : ℕ, q < s.numQuestions ∧
          o < s.options.length ∧ cellFillRatio img s q o > s.minFillRatio) ∧
      ∀ l, alookup (detect_filled_bubbles img sections) name = some l → l ≠ [] := by
  have hchar := alookup_detect img sections name
  constructor
  · rw [hchar]
    by_cases hnil : nameDetections img sections name = []
    · rw [if_pos hnil]
      simp only [Option.isSome_none, Bool.false_eq_true, false_iff]
      rintro ⟨s, hs, hname, q, o, hq, ho, hcond⟩
      have h1 : sectionDetections img s = [] := by
        have h2 := (List.flatMap_eq_nil_iff.mp hnil) s hs
        rw [if_pos hname] at h2
        exact h2
      exact (sectionDetections_ne_nil_iff img s).mpr ⟨q, o, hq, ho, hcond⟩ h1
    · rw [if_neg hnil]
      simp only [Option.isSome_some, true_iff]
      have hex : ∃ s ∈ sections,
          (if s.name = name then sectionDetections img s else []) ≠ [] := by
        by_contra hall
        push_neg at hall
        exact hnil (List.flatMap_eq_nil_iff.mpr hall)
      rcases hex with ⟨s, hs, hne⟩
      by_cases hname : s.name = name
      · rw [if_pos hname] at hne
        rcases (sectionDetections_ne_nil_iff img s).mp hne with ⟨q, o, hq, ho, hcond⟩
        exact ⟨s, hs, hname, q, o, hq, ho, hcond⟩
      · rw [if_neg hname] at hne
        exact absurd rfl hne
  · intro l hl
    rw [hchar] at hl
    by_cases hnil : nameDetections img sections name = []
    · rw [if_pos hnil] at hl
      cases hl
    · rw [if_neg hnil] at hl
      injection hl with hl
      rw [← hl]
      exact hnil

/-- Witness for C6 at a concrete input: the bucket stored for secW in the
all-foreground image is the nonempty list of its two detections. -/
theorem claim_C6_witness :
    alookup (detect_filled_bubbles imgW [secW]) "W" = some [(1, "A"), (1, "B")] ∧
      [(1, "A"), (1, "B")] ≠ ([] : List (ℕ × String)) :=
  ⟨by with_unfolding_all decide,
    (claim_C6_key_iff_filled_cell imgW [secW] "W").2 [(1, "A"), (1, "B")]
      (by with_unfolding_all decide)⟩

/-- Detections of one section stay inside its row range and option list. -/
theorem sectionDetections_range (img : BinImg) (s : SectionSpec α) (q : ℕ)
    (lbl : α) (h : (q, lbl) ∈ sectionDetections img s) :
    1 ≤ q ∧ q ≤ s.numQuestions ∧ lbl ∈ s.options := by
  rcases (mem_sectionDetections_iff img s q lbl).mp h with ⟨j, o, hj, hlook, rfl, _⟩
  exact ⟨Nat.succ_le_succ (Nat.zero_le j), Nat.succ_le_of_lt hj, List.getElem?_mem hlook⟩

/-- C9: every detection stored in the scan result for a name comes from a
section of that name, has 1 ≤ row ≤ numQuestions, and carries a label from
that section's option list. -/
theorem claim_C9_detections_in_range (img : BinImg) (sections : List (SectionSpec α))
    (name : String) (l : List (ℕ × α))
    (h : alookup (detect_filled_bubbles img sections) name = some l)
    (q : ℕ) (lbl : α) (hmem : (q, lbl) ∈ l) :
    ∃ s ∈ sections, s.name = name ∧ 1 ≤ q ∧ q ≤ s.numQuestions ∧ lbl ∈ s.options := by
  rw [alookup_detect] at h
  by_cases hnil : nameDetections img sections name = []
  · rw [if_pos hnil] at h
    cases h
  · rw [if_neg hnil] at h
    injection h with h
    rw [← h] at hmem
    rcases List.mem_flatMap.mp hmem with ⟨s, hs, hin⟩
    by_cases hname : s.name = name
    · rw [if_pos hname] at hin
      obtain ⟨h1, h2, h3⟩ := sectionDetections_range img s q lbl hin
      exact ⟨s, hs, hname, h1, h2, h3⟩
    · rw [if_neg hname] at hin
      cases hin

/-- Witness for C9 at a concrete input: the stored detection (1, A) of secW
satisfies the row and option-list bounds. -/
theorem claim_C9_witness :
    alookup (detect_filled_bubbles imgW [secW]) "W" = some [(1, "A"), (1, "B")] ∧
      ∃ s ∈ [secW], s.name = "W" ∧ 1 ≤ 1 ∧ 1 ≤ s.numQuestions ∧ "A" ∈ s.options :=
  ⟨by with_unfolding_all decide,
    claim_C9_detections_in_range imgW [secW] "W" [(1, "A"), (1, "B")]
      (by with_unfolding_all decide) 1 "A" (by decide)⟩

/-! Row-major ordering of a section's detections. -/

/-- The detections are the projection of their index form, which also
records the option index. -/
theorem sectionDetections_eq_map_idx (img : BinImg) (s : SectionSpec α) :
    sectionDetections img s =
      (sectionDetectionsIdx img s).map (fun p => (p.1, p.2.2)) := by
  unfold sectionDetections sectionDetectionsIdx
  rw [List.map_flatMap]
  congr 1
  funext q
  rw [List.map_filterMap]
  congr 1
  funext oo
  by_cases hcond : cellFillRatio img s q oo.1 > s.minFillRatio
  · simp [hcond]
  · simp [hcond]

/-- The index form of a section's detections is strictly increasing in the
lexicographic order on (row index, option index): ascending rows, and
ascending option index within one row. -/
theorem sectionDetectionsIdx_pairwise (img : BinImg) (s : SectionSpec α) :
    List.Pairwise (fun p p2 : ℕ × ℕ × α =>
      p.1 < p2.1 ∨ (p.1 = p2.1 ∧ p.2.1 < p2.2.1)) (sectionDetectionsIdx img s) := by
  unfold sectionDetectionsIdx
  rw [List.pairwise_flatMap]
  constructor
  · intro q hq
    rw [List.pairwise_filterMap]
    have henum : List.Pairwise (fun oo oo2 : ℕ × α => oo.1 < oo2.1) s.options.enum := by
      rw [List.pairwise_iff_getElem]
      intro i j hi hj hij
      rw [List.getElem_enum, List.getElem_enum]
      simpa using hij
    refine henum.imp ?_
    intro oo oo2 hlt b hb b2 hb2
    rw [Option.mem_def, Option.ite_none_right_eq_some, Option.some.injEq] at hb hb2
    rw [← hb.2, ← hb2.2]
    right
    exact ⟨rfl, hlt⟩
  · have hrange : List.Pairwise (· < ·) (List.range s.numQuestions) :=
      List.pairwise_lt_range s.numQuestions
    refine hrange.imp ?_
    intro q q2 hlt x hx y hy
    rcases List.mem_filterMap.mp hx with ⟨oo, _, hxo⟩
    rw [Option.ite_none_right_eq_some, Option.some.injEq] at hxo
    rcases List.mem_filterMap.mp hy with ⟨oo2, _, hyo⟩
    rw [Option.ite_none_right_eq_some, Option.some.injEq] at hyo
    left
    rw [← hxo.2, ← hyo.2]
    exact Nat.succ_lt_succ hlt

/-- C5: a section's detection list is in row-major order: it is the label
projection of its index form, and the index form is strictly increasing in
(row index, then option index). -/
theorem claim_C5_row_major_order (img : BinImg) (s : SectionSpec α) :
    (sectionDetections img s =
        (sectionDetectionsIdx img s).map (fun p => (p.1, p.2.2))) ∧
      List.Pairwise (fun p p2 : ℕ × ℕ × α =>
        p.1 < p2.1 ∨ (p.1 = p2.1 ∧ p.2.1 < p2.2.1)) (sectionDetectionsIdx img s) :=
  ⟨sectionDetections_eq_map_idx img s, sectionDetectionsIdx_pairwise img s⟩

end OMR
